import Mathlib

/-!
Verification of the Slack-RAG pipeline: a shallow embedding of the core of
`DataProcessor.py` (thread flattening and index chunking), `GraphBuilder.py`
(the checkpointed batch loop that extracts graph data per message) and
`RagQuery.py` (retrieve / rerank / answer synthesis), together with theorems
settling the specification claims about them.
-/

/-! ### Python string primitives

`pyReplace` models Python `str.replace` (left-to-right, non-overlapping,
scanning resumes after the replacement), `pyStrip` models `str.strip` for
ASCII whitespace, `pySplit` models `str.split(sep)` with a non-empty
separator, and `joinSep` models `sep.join(parts)`.  They are written on
character lists with an explicit fuel argument (always instantiated with the
string length, which bounds the recursion) so that every definition is
structurally recursive and kernel-evaluable. -/

def replaceTail (pat rep : List Char) : Nat → List Char → List Char
  | _, [] => []
  | 0, l => l
  | fuel + 1, c :: cs =>
    if pat.isPrefixOf (c :: cs) then
      rep ++ replaceTail pat rep fuel (List.drop (pat.length - 1) cs)
    else
      c :: replaceTail pat rep fuel cs

def pyReplace (s pat rep : String) : String :=
  String.mk (replaceTail pat.data rep.data s.data.length s.data)

def pyStrip (s : String) : String :=
  String.mk (((s.data.dropWhile Char.isWhitespace).reverse.dropWhile Char.isWhitespace).reverse)

def splitTail (sep : List Char) : Nat → List Char → List Char → List (List Char)
  | _, [], acc => [acc.reverse]
  | 0, l, acc => [acc.reverse ++ l]
  | fuel + 1, c :: cs, acc =>
    if sep.isPrefixOf (c :: cs) then
      acc.reverse :: splitTail sep fuel (List.drop (sep.length - 1) cs) []
    else
      splitTail sep fuel cs (c :: acc)

def pySplit (s sep : String) : List String :=
  (splitTail sep.data s.data.length s.data []).map String.mk

def joinSep (sep : String) : List String → String
  | [] => ""
  | [x] => x
  | x :: y :: xs => x ++ sep ++ joinSep sep (y :: xs)

/-! ### Input data model

One raw Slack record, as both scripts read it from the export JSON:
`timestamp` is `str(msg.get("timestamp") or "")` (so `""` stands for a
missing/falsy id), `text` is `msg.get("text", "") or ""`, `files` is the
list of per-file summaries (`file.get("summary") or ""`, so `""` stands for
a missing summary), and `thread_replies` is the reply list (missing/falsy
becomes the empty list). -/

structure SlackNode where
  text : String
  files : List String
deriving DecidableEq

structure SlackMsg where
  timestamp : String
  node : SlackNode
  thread_replies : List SlackNode
deriving DecidableEq

/-! ### DataProcessor.py -/

/-- `_clean_slack_markup` (DataProcessor.py lines 33-41): drop the characters
of the class `[*_~]`, decode the three entity escapes in source order
(`&lt;`, `&gt;`, `&amp;`), then strip surrounding whitespace. -/
def clean_slack_markup (text : String) : String :=
  let t := String.mk (text.data.filter (fun c => !(c == '*' || c == '_' || c == '~')))
  pyStrip (pyReplace (pyReplace (pyReplace t "&lt;" "<") "&gt;" ">") "&amp;" "&")

/-- `_merge_message` (DataProcessor.py lines 44-58): cleaned body (omitted when
the raw text is empty) followed by one labeled line per non-empty attachment
summary, joined with single newlines. -/
def merge_message (m : SlackNode) : String :=
  let parts :=
    (if m.text = "" then [] else [clean_slack_markup m.text]) ++
      (m.files.filter (fun s => s != "")).map (fun s => "Attached file summary: " ++ s)
  joinSep "\n" parts

/-- `_flatten_messages` (DataProcessor.py lines 61-74): one
`(timestamp, text)` document per message with a non-empty id; the text joins
the non-empty sections (root first, then each reply in input order) with a
blank-line separator. -/
def flatten_messages (msgs : List SlackMsg) : List (String × String) :=
  msgs.filterMap fun m =>
    if m.timestamp = "" then none
    else
      let sections := merge_message m.node :: m.thread_replies.map merge_message
      some (m.timestamp, joinSep "\n\n" (sections.filter (fun s => s != "")))

/-! ### The indexing chunker (`_chunk_documents`)

`_chunk_documents` (DataProcessor.py lines 77-92) delegates the actual
splitting to langchain's `RecursiveCharacterTextSplitter.from_tiktoken_encoder`,
whose code is not part of this repository. -/

/-- Fuel-driven chunking of a list into consecutive groups of at most
`max k 1` elements (the raw-cut fallback of the recursive splitter). -/
def chunkList {α : Type} (k : Nat) : Nat → List α → List (List α)
  | _, [] => []
  | 0, l => [l]
  | fuel + 1, x :: xs =>
    (x :: xs).take (max k 1) :: chunkList k fuel ((x :: xs).drop (max k 1))

def rawCut (size : Nat) (text : String) : List String :=
  (chunkList size text.data.length text.data).map String.mk

/-- Modelled from the spec: the recursive structural splitting pass of the
token-bounded splitter (implemented outside this repository by
`RecursiveCharacterTextSplitter`): a text within the token budget stays
whole; an oversize text is split at the strongest separator available
(paragraph, then sentence/line, then word) and each piece is decomposed
recursively, falling back to raw cuts when no separator is left. -/
def recSplitPieces (enc : String → Nat) (size : Nat) : List String → String → List String
  | [], text => if enc text ≤ size then [text] else rawCut size text
  | sep :: seps, text =>
    if enc text ≤ size then [text]
    else (pySplit text sep).flatMap (recSplitPieces enc size seps)

/-- Longest suffix of the current chunk's pieces whose token total fits in
the overlap budget; it seeds the next chunk so that consecutive chunks share
roughly `overlap` tokens. -/
def takeRightTokens (enc : String → Nat) (budget : Nat) : List String → Nat → List String
  | [], _ => []
  | p :: ps, t => if t + enc p ≤ budget then p :: takeRightTokens enc budget ps (t + enc p) else []

def overlapSeed (enc : String → Nat) (overlap : Nat) (cur : List String) : List String :=
  (takeRightTokens enc overlap cur.reverse 0).reverse

structure MergeState where
  chunks : List String
  cur : List String
  curTokens : Nat

/-- Modelled from the spec: the greedy merge pass of the external splitter —
pack pieces while the running token count fits the budget; on flush, carry an
overlap-sized suffix of the finished chunk into the next one.  (Separator
re-insertion between merged pieces is abstracted to a single space.) -/
def mergeStep (enc : String → Nat) (size overlap : Nat) (st : MergeState) (piece : String) : MergeState :=
  let pt := enc piece
  if st.curTokens + pt ≤ size then
    { st with cur := st.cur ++ [piece], curTokens := st.curTokens + pt }
  else
    let seed := overlapSeed enc overlap st.cur
    { chunks := if st.cur = [] then st.chunks else st.chunks ++ [joinSep " " st.cur],
      cur := seed ++ [piece],
      curTokens := (seed.map enc).sum + pt }

/-- Modelled from the spec: `split_text` of the configured
`RecursiveCharacterTextSplitter` — a document whose token length is within
`chunk_size` yields exactly the one chunk equal to the document's full text;
an oversize document is structurally split and greedily re-merged into
token-bounded, overlapping chunks. -/
def split_text (enc : String → Nat) (size overlap : Nat) (text : String) : List String :=
  if enc text ≤ size then [text]
  else
    let pieces := recSplitPieces enc size ["\n\n", "\n", " "] text
    let st := pieces.foldl (mergeStep enc size overlap) ⟨[], [], 0⟩
    if st.cur = [] then st.chunks else st.chunks ++ [joinSep " " st.cur]

/-- `_chunk_documents` (DataProcessor.py lines 77-92): split each flattened
document and tag every chunk with the document's timestamp. -/
def chunk_documents (enc : String → Nat) (size overlap : Nat)
    (docs : List (String × String)) : List (String × String) :=
  docs.flatMap fun d => (split_text enc size overlap d.2).map (fun c => (d.1, c))

/-! ### GraphBuilder.py — content assembly -/

/-- `extract_files_links` (GraphBuilder.py lines 69-83): one labeled line per
non-empty attached-file summary. -/
def extract_files_links (files : List String) : List String :=
  (files.filter (fun s => s != "")).map (fun s => "Attached file summary: " ++ s)

/-- `extract_merge_text` (GraphBuilder.py lines 85-95): strip Slack markup by
sequential replaces, decode the three entity escapes, then append the
attachment lines (the body is stripped only when attachment lines exist). -/
def extract_merge_text (text : String) (files : List String) : String :=
  let slack_text :=
    pyReplace (pyReplace (pyReplace (pyReplace (pyReplace (pyReplace
      text "*" "") "_" "") "~" "") "&lt;" "<") "&gt;" ">") "&amp;" "&"
  let extra_info_lines := extract_files_links files
  if extra_info_lines = [] then slack_text
  else pyStrip slack_text ++ "\n" ++ joinSep "\n" extra_info_lines

/-- GraphBuilder.py lines 112-121: the module-level variable `slack_content`
is assigned only when the root text is non-empty and is extended by `+=` for
each non-empty reply.  `prev` is the value the variable holds from earlier
iterations (`none` when it was never assigned); a result of `none` means the
loop would read an undefined variable (an uncaught `NameError`). -/
def assemble (prev : Option String) (m : SlackMsg) : Option String :=
  let v := if m.node.text = "" then prev
           else some (extract_merge_text m.node.text m.node.files)
  m.thread_replies.foldl
    (fun v r => if r.text = "" then v
                else v.map (fun s => s ++ "\n\n" ++ extract_merge_text r.text r.files)) v

/-! ### GraphBuilder.py — the coarse paragraph-packing chunker
(lines 123-145).  The loop variable `current_chunk` is represented by the
list `cur` of the paragraphs packed into it so far: the string the source
builds is always `String.join (cur.map (fun p => p ++ "\n\n"))` and is empty
iff `cur = []`, so `renderChunk` recovers exactly the
`current_chunk.strip()` the source appends at flush time. -/

structure PackState where
  docs : List (List String)
  cur : List String
  curTokens : Nat

def packStep (enc : String → Nat) (token_limit : Nat) (st : PackState) (para : String) : PackState :=
  let para_tokens := enc para
  if st.curTokens + para_tokens < token_limit then
    { st with cur := st.cur ++ [para], curTokens := st.curTokens + para_tokens }
  else
    { docs := if st.cur = [] then st.docs else st.docs ++ [st.cur],
      cur := [para], curTokens := para_tokens }

def packGroups (enc : String → Nat) (token_limit : Nat) (content : String) : List (List String) :=
  let st := (pySplit content "\n\n").foldl (packStep enc token_limit) ⟨[], [], 0⟩
  if st.cur = [] then st.docs else st.docs ++ [st.cur]

def renderChunk (g : List String) : String :=
  pyStrip (String.join (g.map (fun p => p ++ "\n\n")))

/-- GraphBuilder.py lines 123-145: within the token limit the whole content
is the single document; above it the content is split on `"\n\n"` and the
paragraphs are greedily packed. -/
def buildDocuments (enc : String → Nat) (token_limit : Nat) (content : String) : List String :=
  if enc content > token_limit then (packGroups enc token_limit content).map renderChunk
  else [content]

/-! ### GraphBuilder.py — checkpoint store and batch loop -/

/-- A checkpoint entry (`{"status": ...}` in the JSON ledger). -/
inductive Status where
  | pending : Status
  | done (result : String) : Status
  | error (msg : String) : Status
deriving DecidableEq

/-- The in-memory checkpoint store: message id to entry. -/
def Ckpt : Type := String → Option Status

def Ckpt.set (ck : Ckpt) (msgId : String) (s : Status) : Ckpt :=
  fun x => if x = msgId then some s else ck x

def Status.isDone : Status → Bool
  | done _ => true
  | _ => false

/-- `msg_id in checkpoint and checkpoint[msg_id].get("status") == "done"`. -/
def isDoneAt (ck : Ckpt) (msgId : String) : Bool :=
  match ck msgId with
  | some s => s.isDone
  | none => false

/-- Observable actions of one batch run: full-store writes of the checkpoint
file, and the two side-effecting backend calls
(`graph_transformer.convert_to_graph_documents` per document and
`graph.add_graph_documents` per item). -/
inductive Event where
  | persist (store : Ckpt)
  | convert (msgId : String) (content : String)
  | addGraph (msgId : String)

/-- A `langchain` `Document`: `page_content` plus the `{"id": msg_id}`
metadata. -/
structure Document where
  page_content : String
  msgId : String

/-- The result string of GraphBuilder.py line 160 (the source misses the
`f` prefix, so the braces are stored literally). -/
def doneResult : String :=
  "Processed message \x7bmsg_id\x7d: extracted \x7blen(graph_docs)\x7d graphs"

/-- GraphBuilder.py lines 149-154: convert each document in order, stopping
at the first raised error; successful results are concatenated
(`graph_docs.extend`).  Returns the emitted backend events and the outcome. -/
def runConverts {γ : Type} (convert : Document → Except String (List γ)) (msgId : String) :
    List Document → List Event × Except String (List γ)
  | [] => ([], Except.ok [])
  | d :: ds =>
    match convert d with
    | Except.error e => ([Event.convert msgId d.page_content], Except.error e)
    | Except.ok gs =>
      let r := runConverts convert msgId ds
      (Event.convert msgId d.page_content :: r.1,
        match r.2 with
        | Except.error e => Except.error e
        | Except.ok rest => Except.ok (gs ++ rest))

/-- GraphBuilder.py lines 148-172, the `try`/`except` block: run the
conversions, then the graph insertion; on success mark `done`, on any raised
error mark `error` with the message; either way persist the whole store.
Returns the updated store and the events the block emits. -/
def tryBody {γ : Type} (convert : Document → Except String (List γ))
    (addGraphDocs : List γ → Except String Unit) (ck1 : Ckpt) (msgId : String)
    (documents : List Document) : Ckpt × List Event :=
  let r := runConverts convert msgId documents
  match r.2 with
  | Except.error e =>
    let ck2 := ck1.set msgId (Status.error e)
    (ck2, r.1 ++ [Event.persist ck2])
  | Except.ok graph_docs =>
    match addGraphDocs graph_docs with
    | Except.error e =>
      let ck2 := ck1.set msgId (Status.error e)
      (ck2, r.1 ++ [Event.addGraph msgId, Event.persist ck2])
    | Except.ok _ =>
      let ck2 := ck1.set msgId (Status.done doneResult)
      (ck2, r.1 ++ [Event.addGraph msgId, Event.persist ck2])

/-- State of one run of the module-level loop: the in-memory checkpoint, the
module-level `slack_content` variable, the events emitted so far, and whether
an uncaught exception has terminated the process. -/
structure RunState where
  ckpt : Ckpt
  slackContent : Option String
  trace : List Event
  aborted : Bool

/-- One iteration of `for msg in tqdm.tqdm(messages)` (GraphBuilder.py lines
99-172): skip on a falsy id or a `done` entry; otherwise mark `pending` and
persist, assemble the content (an undefined `slack_content` raises an
uncaught `NameError`, terminating the whole run), chunk it with the
3000-token limit, and run the `try` block. -/
def processItem {γ : Type} (convert : Document → Except String (List γ))
    (addGraphDocs : List γ → Except String Unit) (enc : String → Nat)
    (st : RunState) (msg : SlackMsg) : RunState :=
  if st.aborted then st
  else
    let msg_id := msg.timestamp
    if msg_id = "" then st
    else if isDoneAt st.ckpt msg_id then st
    else
      let ck1 := st.ckpt.set msg_id Status.pending
      let tr1 := st.trace ++ [Event.persist ck1]
      match assemble st.slackContent msg with
      | none => { ckpt := ck1, slackContent := none, trace := tr1, aborted := true }
      | some content =>
        let documents := (buildDocuments enc 3000 content).map (fun t => Document.mk t msg_id)
        let r := tryBody convert addGraphDocs ck1 msg_id documents
        { ckpt := r.1, slackContent := some content, trace := tr1 ++ r.2, aborted := false }

/-- The whole batch loop over the chronologically sorted messages, starting
from the checkpoint store loaded from disk (the `slack_content` variable is
initially undefined). -/
def runBatch {γ : Type} (convert : Document → Except String (List γ))
    (addGraphDocs : List γ → Except String Unit) (enc : String → Nat)
    (msgs : List SlackMsg) (ckpt0 : Ckpt) : RunState :=
  msgs.foldl (processItem convert addGraphDocs enc) ⟨ckpt0, none, [], false⟩

/-- The checkpoint store on disk after a trace of events: the store carried
by the last `persist` event, or the initially loaded store when none was
written. -/
def lastPersist (disk : Ckpt) : List Event → Ckpt
  | [] => disk
  | Event.persist m :: rest => lastPersist m rest
  | Event.convert _ _ :: rest => lastPersist disk rest
  | Event.addGraph _ :: rest => lastPersist disk rest

/-- Scanning a trace while tracking the on-disk store: every side-effecting
backend call happens while the store on disk maps the call's item to
`pending`. -/
def persistedBefore (disk : Ckpt) : List Event → Prop
  | [] => True
  | Event.persist m :: rest => persistedBefore m rest
  | Event.convert msgId _ :: rest => disk msgId = some Status.pending ∧ persistedBefore disk rest
  | Event.addGraph msgId :: rest => disk msgId = some Status.pending ∧ persistedBefore disk rest

/-- Does an event invoke the unit of work (graph extraction or insertion)
for the given item? -/
def touches (msgId : String) : Event → Bool
  | Event.convert i _ => i == msgId
  | Event.addGraph i => i == msgId
  | Event.persist _ => false

/-- The unit of work was invoked for the item somewhere in the trace. -/
def invokedIn (msgId : String) (tr : List Event) : Bool :=
  tr.any (touches msgId)

/-! ### RagQuery.py -/

/-- The comparator realising CPython's
`sorted(zip(docs, scores), key=lambda x: x[1], reverse=True)` on
index-decorated candidates: CPython's sort is stable and `reverse=True`
keeps equal-key elements in original order, which is captured by breaking
score ties by the original position. -/
def rrCmp (a b : Nat × String × Int) : Bool :=
  decide (b.2.2 < a.2.2) || (decide (a.2.2 = b.2.2) && decide (a.1 ≤ b.1))

/-- `rerank` (RagQuery.py lines 53-61): empty candidate list short-circuits;
otherwise score every `(query, page_content)` pair with the cross-encoder,
sort descending by score (stable), and keep the first `k2` documents.  The
cross-encoder is the parameter `score`; documents are their page contents. -/
def rerank (score : String → String → Int) (query : String)
    (docs : List String) (k2 : Nat) : List String :=
  if docs = [] then []
  else
    let scored := docs.enum.map (fun p => (p.1, p.2, score query p.2))
    let ranked := scored.mergeSort rrCmp
    (ranked.map (fun p => p.2.1)).take k2

/-- `SYSTEM_PROMPT` (RagQuery.py lines 67-75); the adjacent Python string
literals concatenate without separators. -/
def SYSTEM_PROMPT : String :=
  "You are an AI assistant that answers employee questions using our internal knowledge base.Our company is a social-casino game studioThe context contains Slack messages, file excerpts, or summaries retrieved for high relevance to the questionIf the answer is not contained in the context, say you don\x27t know.Give concrete numbers, dates, names, and policies when available.Preserve original terminology; add concise explanations only if helpful.Whenever the context contains garbled symbols like ‘�’, intelligently infer and replace the missing text from surrounding context, then reply with a clean, coherent answer free of any garbled characters."

/-- One entry of the role-tagged message list for the chat backend. -/
structure ChatMessage where
  role : String
  content : String
deriving DecidableEq

/-- `build_prompt` (RagQuery.py lines 78-89): label each context document
`[Doc i+1]`, join with blank lines, and wrap in the fixed template; the user
message is `f"Context:\n{context}\n\n" f"Question: {query}\n\n" "Answer:"`. -/
def build_prompt (query : String) (context_docs : List String) : List ChatMessage :=
  let context :=
    joinSep "\n\n" (context_docs.enum.map (fun p => "[Doc " ++ Nat.repr (p.1 + 1) ++ "]\n" ++ p.2))
  [⟨"system", SYSTEM_PROMPT⟩,
   ⟨"user", "Context:\n" ++ context ++ "\n\n" ++ "Question: " ++ query ++ "\n\n" ++ "Answer:"⟩]

/-- `generate_answer` (RagQuery.py lines 92-100): invoke the chat backend on
the built prompt with the `max_tokens` response-length cap. -/
def generate_answer (chatInvoke : List ChatMessage → Nat → String)
    (query : String) (context_docs : List String) (max_tokens : Nat) : String :=
  chatInvoke (build_prompt query context_docs) max_tokens

set_option maxRecDepth 8000

/-! ### Helper lemmas -/

theorem Ckpt.set_self (ck : Ckpt) (msgId : String) (s : Status) :
    (ck.set msgId s) msgId = some s := by
  simp [Ckpt.set]

theorem Ckpt.set_other (ck : Ckpt) (msgId x : String) (s : Status) (h : x ≠ msgId) :
    (ck.set msgId s) x = ck x := by
  simp [Ckpt.set, h]

/-! ### C5 — the indexing chunker on small documents -/

/-- C5: for every document whose token length (under the configured encoding)
is at most `chunk_size`, the indexing chunker produces exactly one chunk whose
text equals the document's full text (stated over a whole batch of such
documents: `_chunk_documents` is the identity on it). -/
theorem chunk_documents_small_is_identity (enc : String → Nat) (size overlap : Nat)
    (docs : List (String × String)) (h : ∀ d ∈ docs, enc d.2 ≤ size) :
    chunk_documents enc size overlap docs = docs := by
  induction docs with
  | nil => rfl
  | cons d ds ih =>
    have hd : split_text enc size overlap d.2 = [d.2] := by
      unfold split_text
      rw [if_pos (h d (List.mem_cons_self _ _))]
    have hds := ih (fun x hx => h x (List.mem_cons_of_mem _ hx))
    simp only [chunk_documents] at hds ⊢
    simp [List.flatMap_cons, hd, hds]

/-- Witness for C5 at a concrete document. -/
theorem chunk_documents_small_is_identity_witness :
    chunk_documents String.length 800 100 [("1", "hello")] = [("1", "hello")] :=
  chunk_documents_small_is_identity String.length 800 100 [("1", "hello")] (by decide)

/-! ### C6 — the thread flattener -/

/-- C6: for every input list, each message with a non-empty id contributes
exactly one document: its text joins the non-empty sections (the root's
section first, then one section per reply in input order, each section
produced by `_merge_message`) with a blank-line separator; the output has one
entry per valid-id message; and a root with two replies, all three sections
non-empty, yields exactly the three sections root-first. -/
theorem flatten_messages_sections (msgs : List SlackMsg) (m : SlackMsg)
    (hm : m ∈ msgs) (hid : m.timestamp ≠ "") :
    (m.timestamp,
        joinSep "\n\n"
          ((merge_message m.node :: m.thread_replies.map merge_message).filter
            (fun s => s != ""))) ∈ flatten_messages msgs ∧
    (flatten_messages msgs).length = (msgs.filter (fun x => x.timestamp != "")).length ∧
    (∀ r1 r2, m.thread_replies = [r1, r2] → merge_message m.node ≠ "" →
      merge_message r1 ≠ "" → merge_message r2 ≠ "" →
      (m.timestamp,
          merge_message m.node ++ "\n\n" ++ merge_message r1 ++ "\n\n" ++ merge_message r2) ∈
        flatten_messages msgs) := by
  refine ⟨?_, ?_, ?_⟩
  · exact List.mem_filterMap.mpr ⟨m, hm, by simp [hid]⟩
  · clear hm hid
    induction msgs with
    | nil => rfl
    | cons x xs ih =>
      by_cases hx : x.timestamp = ""
      · simp [flatten_messages, List.filterMap_cons, List.filter_cons, hx] at ih ⊢
        exact ih
      · simp [flatten_messages, List.filterMap_cons, List.filter_cons, hx] at ih ⊢
        exact ih
  · intro r1 r2 hr h0 h1 h2
    have : (merge_message m.node :: m.thread_replies.map merge_message).filter
        (fun s => s != "") =
        [merge_message m.node, merge_message r1, merge_message r2] := by
      simp [hr, List.filter_cons, h0, h1, h2]
    refine List.mem_filterMap.mpr ⟨m, hm, ?_⟩
    simp only [hid, if_neg, this]
    simp [joinSep, String.append_assoc]

/-- Witness for C6 at a concrete two-reply thread. -/
theorem flatten_messages_sections_witness :
    ("1", "root\n\nalpha\n\nbeta") ∈
      flatten_messages [⟨"1", ⟨"root", []⟩, [⟨"alpha", []⟩, ⟨"beta", []⟩]⟩] :=
  (flatten_messages_sections [⟨"1", ⟨"root", []⟩, [⟨"alpha", []⟩, ⟨"beta", []⟩]⟩]
      ⟨"1", ⟨"root", []⟩, [⟨"alpha", []⟩, ⟨"beta", []⟩]⟩
      (List.mem_cons_self _ _) (by decide)).2.2
    ⟨"alpha", []⟩ ⟨"beta", []⟩ rfl (by decide) (by decide) (by decide)

/-! ### C8 — the answer-synthesis prompt -/

/-- C8 counterexample: the user message does not match the claimed template
`Context:\n<block>\n\nQuestion:\n<query>\n\nAnswer:` — after `Question:` the
source puts a space, not a newline. -/
theorem build_prompt_newline_counterexample :
    (build_prompt "Q" ["D"]).map ChatMessage.content ≠
      [SYSTEM_PROMPT, "Context:\n[Doc 1]\nD\n\nQuestion:\nQ\n\nAnswer:"] ∧
    (build_prompt "Q" ["D"]).map ChatMessage.content =
      [SYSTEM_PROMPT, "Context:\n[Doc 1]\nD\n\nQuestion: Q\n\nAnswer:"] := by
  constructor
  · decide
  · decide

/-- C8 (amended): the prompt builder concatenates the context documents with
`[Doc i]` labels into one blank-line-joined block, produces exactly the user
message `Context:\n<block>\n\nQuestion: <query>\n\nAnswer:` (a space after
`Question:`, not a newline), pairs it with the fixed system instruction, and
the LLM is invoked on that prompt with the response-length cap. -/
theorem build_prompt_template (chatInvoke : List ChatMessage → Nat → String)
    (query : String) (context_docs : List String) (max_tokens : Nat) :
    build_prompt query context_docs =
      [⟨"system", SYSTEM_PROMPT⟩,
       ⟨"user",
        "Context:\n" ++
            joinSep "\n\n"
              (context_docs.enum.map (fun p => "[Doc " ++ Nat.repr (p.1 + 1) ++ "]\n" ++ p.2)) ++
          "\n\n" ++ "Question: " ++ query ++ "\n\n" ++ "Answer:"⟩] ∧
    generate_answer chatInvoke query context_docs max_tokens =
      chatInvoke (build_prompt query context_docs) max_tokens := by
  exact ⟨rfl, rfl⟩

/-! ### C9 — the normalizer -/

theorem mem_replaceTail {pat rep : List Char} :
    ∀ {fuel : Nat} {l : List Char} {c : Char}, c ∈ replaceTail pat rep fuel l →
      c ∈ l ∨ c ∈ rep := by
  intro fuel
  induction fuel with
  | zero =>
    intro l c h
    cases l with
    | nil => cases h
    | cons a as => exact Or.inl h
  | succ n ih =>
    intro l c h
    cases l with
    | nil => cases h
    | cons a as =>
      simp only [replaceTail] at h
      by_cases hp : pat.isPrefixOf (a :: as)
      · rw [if_pos hp] at h
        rcases List.mem_append.mp h with h | h
        · exact Or.inr h
        · rcases ih h with h | h
          · exact Or.inl (List.mem_cons_of_mem _ ((List.drop_sublist _ _).mem h))
          · exact Or.inr h
      · rw [if_neg hp] at h
        rcases List.mem_cons.mp h with h | h
        · exact Or.inl (h ▸ List.mem_cons_self _ _)
        · rcases ih h with h | h
          · exact Or.inl (List.mem_cons_of_mem _ h)
          · exact Or.inr h

theorem mem_pyReplace {s pat rep : String} {c : Char} (h : c ∈ (pyReplace s pat rep).data) :
    c ∈ s.data ∨ c ∈ rep.data := by
  exact mem_replaceTail h

theorem mem_pyStrip {s : String} {c : Char} (h : c ∈ (pyStrip s).data) : c ∈ s.data := by
  simp only [pyStrip] at h
  have h1 := List.mem_reverse.mp h
  have h2 := (List.dropWhile_sublist _).mem h1
  have h3 := List.mem_reverse.mp h2
  exact (List.dropWhile_sublist _).mem h3

theorem dropWhile_idem {α : Type} (p : α → Bool) (l : List α) :
    (l.dropWhile p).dropWhile p = l.dropWhile p := by
  induction l with
  | nil => rfl
  | cons a as ih =>
    by_cases hp : p a
    · simp [List.dropWhile_cons, hp, ih]
    · simp [List.dropWhile_cons, hp]

theorem dropWhile_head_false {α : Type} {p : α → Bool} :
    ∀ {l a t}, List.dropWhile p l = a :: t → p a = false := by
  intro l
  induction l with
  | nil => intro a t h; cases h
  | cons x xs ih =>
    intro a t h
    by_cases hp : p x
    · rw [List.dropWhile_cons, if_pos hp] at h
      exact ih h
    · rw [List.dropWhile_cons, if_neg hp] at h
      cases h
      exact Bool.of_not_eq_true hp

theorem stripList_idem (w : Char → Bool) (l : List Char) :
    (((((((l.dropWhile w).reverse.dropWhile w).reverse).dropWhile w).reverse).dropWhile w).reverse) =
      ((l.dropWhile w).reverse.dropWhile w).reverse := by
  have h2 : (((l.dropWhile w).reverse.dropWhile w).reverse).dropWhile w =
      ((l.dropWhile w).reverse.dropWhile w).reverse := by
    cases he : ((l.dropWhile w).reverse.dropWhile w).reverse with
    | nil => rfl
    | cons a t =>
      have hpre : ((l.dropWhile w).reverse.dropWhile w).reverse <+: l.dropWhile w := by
        rw [← List.reverse_suffix, List.reverse_reverse]
        exact List.dropWhile_suffix w
      rw [he] at hpre
      rcases hpre with ⟨rest, hrest⟩
      have hfa : w a = false := dropWhile_head_false hrest.symm
      rw [List.dropWhile_cons, if_neg (by simp [hfa])]
  rw [h2, List.reverse_reverse, dropWhile_idem]

theorem pyStrip_idem (s : String) : pyStrip (pyStrip s) = pyStrip s :=
  congrArg String.mk (stripList_idem Char.isWhitespace s.data)

theorem char_of_mem_singleton {c a : Char} {s : String} (e : s.data = [a]) (h : c ∈ s.data) :
    c = a := by
  rw [e] at h
  simpa using h

/-- C9 counterexample: the code decodes only three HTML entity escapes
(`&lt;`, `&gt;`, `&amp;`); a fourth common escape, `&quot;`, is not decoded,
so the input `&quot;` is returned verbatim instead of as `"`. -/
theorem clean_slack_markup_quot_counterexample :
    clean_slack_markup "&quot;" = "&quot;" ∧ "&quot;" ≠ "\"" := by
  exact ⟨by decide, by decide⟩

/-- C9 (amended): the normalizer is a pure total function with no failure
modes: for every input it removes the emphasis/strike markup characters
(`*`, `_`, `~`), decodes the three common HTML entity escapes `&lt;`, `&gt;`,
`&amp;` (only these three — not four), and trims surrounding whitespace;
empty input yields empty output. -/
theorem clean_slack_markup_normalizes (s : String) :
    (∀ c ∈ (clean_slack_markup s).data, c ≠ '*' ∧ c ≠ '_' ∧ c ≠ '~') ∧
    pyStrip (clean_slack_markup s) = clean_slack_markup s ∧
    clean_slack_markup "" = "" ∧
    clean_slack_markup " *a*&lt;b&gt;c&amp;d ~e~ " = "a<b>c&d e" := by
  refine ⟨?_, ?_, by decide, by decide⟩
  · intro c hc
    simp only [clean_slack_markup] at hc
    have h1 := mem_pyStrip hc
    rcases mem_pyReplace h1 with h2 | hr
    · rcases mem_pyReplace h2 with h3 | hr
      · rcases mem_pyReplace h3 with h4 | hr
        · have hb := (List.mem_filter.mp h4).2
          simp at hb
          exact ⟨hb.1.1, hb.1.2, hb.2⟩
        · rcases char_of_mem_singleton rfl hr with rfl
          decide
      · rcases char_of_mem_singleton rfl hr with rfl
        decide
    · rcases char_of_mem_singleton rfl hr with rfl
      decide
  · simp only [clean_slack_markup]
    exact pyStrip_idem _


/-! ### C4 — the coarse paragraph-packing chunker -/

theorem packFold_inv (enc : String → Nat) (limit : Nat) (paras : List String) :
    ∀ st : PackState, (∀ p ∈ paras, enc p < limit) →
      (∀ g ∈ st.docs, g ≠ [] ∧ (g.map enc).sum < limit) →
      st.curTokens = (st.cur.map enc).sum →
      (st.cur ≠ [] → (st.cur.map enc).sum < limit) →
      (∀ g ∈ (paras.foldl (packStep enc limit) st).docs, g ≠ [] ∧ (g.map enc).sum < limit) ∧
        (paras.foldl (packStep enc limit) st).curTokens =
          (((paras.foldl (packStep enc limit) st).cur).map enc).sum ∧
        ((paras.foldl (packStep enc limit) st).cur ≠ [] →
          (((paras.foldl (packStep enc limit) st).cur).map enc).sum < limit) := by
  induction paras with
  | nil => intro st _ h1 h2 h3; exact ⟨h1, h2, h3⟩
  | cons p ps ih =>
    intro st hp h1 h2 h3
    have hpp : enc p < limit := hp p (List.mem_cons_self _ _)
    have hps : ∀ q ∈ ps, enc q < limit := fun q hq => hp q (List.mem_cons_of_mem _ hq)
    simp only [List.foldl_cons]
    by_cases hc : st.curTokens + enc p < limit
    · have hstep : packStep enc limit st p =
          { st with cur := st.cur ++ [p], curTokens := st.curTokens + enc p } := by
        simp [packStep, hc]
      rw [hstep]
      refine ih _ hps h1 ?_ ?_
      · simp [h2]
      · intro _
        simp only [List.map_append, List.sum_append, List.map_cons, List.sum_cons,
          List.map_nil, List.sum_nil]
        omega
    · have hstep : packStep enc limit st p =
          { docs := if st.cur = [] then st.docs else st.docs ++ [st.cur],
            cur := [p], curTokens := enc p } := by
        simp [packStep, hc]
      rw [hstep]
      refine ih _ hps ?_ ?_ ?_
      · intro g hg
        by_cases hnil : st.cur = []
        · rw [if_pos hnil] at hg
          exact h1 g hg
        · rw [if_neg hnil] at hg
          rcases List.mem_append.mp hg with hg | hg
          · exact h1 g hg
          · rcases List.mem_singleton.mp hg with rfl
            exact ⟨hnil, h3 hnil⟩
      · simp
      · intro _
        simpa using hpp

theorem packGroups_bounded (enc : String → Nat) (limit : Nat) (content : String)
    (hp : ∀ p ∈ pySplit content "\n\n", enc p < limit) :
    ∀ g ∈ packGroups enc limit content, g ≠ [] ∧ (g.map enc).sum < limit := by
  have h := packFold_inv enc limit (pySplit content "\n\n") ⟨[], [], 0⟩ hp
    (by intro g hg; cases hg) (by simp) (by intro h; cases h rfl)
  intro g hg
  simp only [packGroups] at hg
  by_cases hc : ((pySplit content "\n\n").foldl (packStep enc limit) ⟨[], [], 0⟩).cur = []
  · rw [if_pos hc] at hg
    exact h.1 g hg
  · rw [if_neg hc] at hg
    rcases List.mem_append.mp hg with hg | hg
    · exact h.1 g hg
    · rcases List.mem_singleton.mp hg with rfl
      exact ⟨hc, h.2.2 hc⟩

theorem runConverts_events {γ : Type} (convert : Document → Except String (List γ))
    (msgId : String) :
    ∀ ds : List Document, ∀ ev ∈ (runConverts convert msgId ds).1,
      ∃ c, ev = Event.convert msgId c := by
  intro ds
  induction ds with
  | nil => intro ev h; cases h
  | cons d rest ih =>
    intro ev h
    cases hc : convert d with
    | error e =>
      simp only [runConverts, hc] at h
      rcases List.mem_singleton.mp h with rfl
      exact ⟨_, rfl⟩
    | ok gs =>
      simp only [runConverts, hc] at h
      rcases List.mem_cons.mp h with rfl | h
      · exact ⟨_, rfl⟩
      · exact ih ev h

theorem runConverts_ok_events {γ : Type} (convert : Document → Except String (List γ))
    (msgId : String) :
    ∀ (ds : List Document) (gs : List γ), (runConverts convert msgId ds).2 = Except.ok gs →
      (runConverts convert msgId ds).1 =
        ds.map (fun d => Event.convert msgId d.page_content) := by
  intro ds
  induction ds with
  | nil => intro gs _; rfl
  | cons d rest ih =>
    intro gs h
    cases hc : convert d with
    | error e => simp [runConverts, hc] at h
    | ok g1 =>
      simp only [runConverts, hc] at h ⊢
      cases hr : (runConverts convert msgId rest).2 with
      | error e => rw [hr] at h; simp at h
      | ok rest2 =>
        simp [List.map_cons, ih rest2 hr]

theorem runConverts_cons_head {γ : Type} (convert : Document → Except String (List γ))
    (msgId : String) (d : Document) (ds : List Document) :
    ∃ rest, (runConverts convert msgId (d :: ds)).1 =
      Event.convert msgId d.page_content :: rest := by
  cases hc : convert d <;> simp [runConverts, hc]

theorem tryBody_done {γ : Type} (convert : Document → Except String (List γ))
    (add : List γ → Except String Unit) (ck1 : Ckpt) (msgId : String) (docs : List Document)
    (h : isDoneAt (tryBody convert add ck1 msgId docs).1 msgId = true) :
    (tryBody convert add ck1 msgId docs).1 = ck1.set msgId (Status.done doneResult) ∧
    (tryBody convert add ck1 msgId docs).2 =
      docs.map (fun d => Event.convert msgId d.page_content) ++
        [Event.addGraph msgId, Event.persist (ck1.set msgId (Status.done doneResult))] := by
  cases hr : (runConverts convert msgId docs).2 with
  | error e =>
    exfalso
    simp only [tryBody, hr, isDoneAt, Ckpt.set_self] at h
    exact Bool.noConfusion h
  | ok gs =>
    cases ha : add gs with
    | error e =>
      exfalso
      simp only [tryBody, hr, ha, isDoneAt, Ckpt.set_self] at h
      exact Bool.noConfusion h
    | ok _ =>
      constructor
      · simp only [tryBody, hr, ha]
      · simp only [tryBody, hr, ha]
        rw [runConverts_ok_events convert msgId docs gs hr]

/-- C4 counterexample: under a 1001-tokens-per-word encoding the content
`"a b c d"` (4004 tokens, no paragraph delimiter) exceeds the 3000-token
limit, yet the chunker emits the whole content as one sub-unit — a sub-unit
of 4004 tokens, refuting "sub-units each no larger than the token limit". -/
theorem paragraph_packer_counterexample :
    (fun s => 1001 * (pySplit s " ").length) "a b c d" > 3000 ∧
    buildDocuments (fun s => 1001 * (pySplit s " ").length) 3000 "a b c d" = ["a b c d"] := by
  exact ⟨by decide, by decide⟩

/-- C4 (amended): for every message whose flattened content exceeds the
secondary 3000-token limit, the loop splits it on the paragraph delimiter
`"\n\n"` and greedily packs whole paragraphs, flushing the current chunk
exactly when adding the next paragraph would reach or exceed the budget;
provided every single paragraph is strictly below the limit, every emitted
sub-unit is a non-empty paragraph group whose token total is strictly below
the limit (an oversize single paragraph is emitted alone and may exceed it);
and whenever the item ends up marked `done`, every sub-unit was submitted to
the extraction backend before the `done` entry was persisted. -/
theorem paragraph_packer_bounded {γ : Type} (enc : String → Nat) (content : String)
    (h : enc content > 3000)
    (hp : ∀ p ∈ pySplit content "\n\n", enc p < 3000) :
    buildDocuments enc 3000 content = (packGroups enc 3000 content).map renderChunk ∧
    (∀ g ∈ packGroups enc 3000 content, g ≠ [] ∧ (g.map enc).sum < 3000) ∧
    (∀ (convert : Document → Except String (List γ)) (add : List γ → Except String Unit)
        (st : RunState) (m : SlackMsg),
      st.aborted = false → m.timestamp ≠ "" → isDoneAt st.ckpt m.timestamp = false →
      assemble st.slackContent m = some content →
      isDoneAt (processItem convert add enc st m).ckpt m.timestamp = true →
      (processItem convert add enc st m).trace =
        st.trace ++
          Event.persist (st.ckpt.set m.timestamp Status.pending) ::
            ((buildDocuments enc 3000 content).map (fun t => Event.convert m.timestamp t) ++
              [Event.addGraph m.timestamp,
               Event.persist
                 ((st.ckpt.set m.timestamp Status.pending).set m.timestamp
                   (Status.done doneResult))])) := by
  refine ⟨?_, packGroups_bounded enc 3000 content hp, ?_⟩
  · unfold buildDocuments
    rw [if_pos h]
  · intro convert add st m h1 h2 h3 h4 h5
    simp only [processItem, h1, h2, h3, h4, Bool.false_eq_true, if_false] at h5 ⊢
    have hdone := tryBody_done convert add (st.ckpt.set m.timestamp Status.pending)
      m.timestamp ((buildDocuments enc 3000 content).map (fun t => Document.mk t m.timestamp)) h5
    rw [hdone.2, List.map_map]
    simp [Function.comp]

/-- Witness for C4 at a concrete two-paragraph content. -/
theorem paragraph_packer_bounded_witness :
    buildDocuments (fun s => 1000 * s.data.length) 3000 "ab\n\ncd" =
      (packGroups (fun s => 1000 * s.data.length) 3000 "ab\n\ncd").map renderChunk ∧
    ((["ab"].map (fun s => 1000 * s.data.length)).sum < 3000) :=
  ⟨(paragraph_packer_bounded (γ := Unit) (fun s => 1000 * s.data.length) "ab\n\ncd"
      (by decide) (by decide)).1,
   ((paragraph_packer_bounded (γ := Unit) (fun s => 1000 * s.data.length) "ab\n\ncd"
      (by decide) (by decide)).2.1 ["ab"] (by decide)).2⟩

/-! ### Batch-loop lemmas for C1, C2, C3 -/

theorem tryBody_ckpt_set {γ : Type} (convert : Document → Except String (List γ))
    (add : List γ → Except String Unit) (ck1 : Ckpt) (msgId : String) (docs : List Document) :
    ∃ s, (tryBody convert add ck1 msgId docs).1 = ck1.set msgId s := by
  cases hr : (runConverts convert msgId docs).2 with
  | error e => exact ⟨Status.error e, by simp [tryBody, hr]⟩
  | ok gs =>
    cases ha : add gs with
    | error e => exact ⟨Status.error e, by simp [tryBody, hr, ha]⟩
    | ok _ => exact ⟨Status.done doneResult, by simp [tryBody, hr, ha]⟩

theorem tryBody_events_kinds {γ : Type} (convert : Document → Except String (List γ))
    (add : List γ → Except String Unit) (ck1 : Ckpt) (msgId : String) (docs : List Document) :
    ∀ ev ∈ (tryBody convert add ck1 msgId docs).2,
      (∃ c, ev = Event.convert msgId c) ∨ ev = Event.addGraph msgId ∨
        ∃ ckx, ev = Event.persist ckx := by
  intro ev hev
  have hconv := runConverts_events convert msgId docs
  cases hr : (runConverts convert msgId docs).2 with
  | error e =>
    simp only [tryBody, hr] at hev
    rcases List.mem_append.mp hev with h | h
    · exact Or.inl (hconv ev h)
    · rcases List.mem_singleton.mp h with rfl
      exact Or.inr (Or.inr ⟨_, rfl⟩)
  | ok gs =>
    cases ha : add gs with
    | error e =>
      simp only [tryBody, hr, ha] at hev
      rcases List.mem_append.mp hev with h | h
      · exact Or.inl (hconv ev h)
      · rcases List.mem_cons.mp h with rfl | h
        · exact Or.inr (Or.inl rfl)
        · rcases List.mem_singleton.mp h with rfl
          exact Or.inr (Or.inr ⟨_, rfl⟩)
    | ok u =>
      simp only [tryBody, hr, ha] at hev
      rcases List.mem_append.mp hev with h | h
      · exact Or.inl (hconv ev h)
      · rcases List.mem_cons.mp h with rfl | h
        · exact Or.inr (Or.inl rfl)
        · rcases List.mem_singleton.mp h with rfl
          exact Or.inr (Or.inr ⟨_, rfl⟩)

theorem tryBody_backend_mem {γ : Type} (convert : Document → Except String (List γ))
    (add : List γ → Except String Unit) (ck1 : Ckpt) (msgId : String)
    (d : Document) (ds : List Document) :
    Event.convert msgId d.page_content ∈ (tryBody convert add ck1 msgId (d :: ds)).2 := by
  rcases runConverts_cons_head convert msgId d ds with ⟨rest, hhead⟩
  cases hr : (runConverts convert msgId (d :: ds)).2 with
  | error e =>
    simp only [tryBody, hr]
    exact List.mem_append.mpr (Or.inl (hhead ▸ List.mem_cons_self _ _))
  | ok gs =>
    cases ha : add gs with
    | error e =>
      simp only [tryBody, hr, ha]
      exact List.mem_append.mpr (Or.inl (hhead ▸ List.mem_cons_self _ _))
    | ok u =>
      simp only [tryBody, hr, ha]
      exact List.mem_append.mpr (Or.inl (hhead ▸ List.mem_cons_self _ _))

theorem lastPersist_append (d : Ckpt) (t1 t2 : List Event) :
    lastPersist d (t1 ++ t2) = lastPersist (lastPersist d t1) t2 := by
  induction t1 generalizing d with
  | nil => rfl
  | cons ev t ih =>
    cases ev with
    | persist m => simp only [List.cons_append, lastPersist]; exact ih m
    | convert i c => simp only [List.cons_append, lastPersist]; exact ih d
    | addGraph i => simp only [List.cons_append, lastPersist]; exact ih d

theorem persistedBefore_append {d : Ckpt} {t1 t2 : List Event}
    (h1 : persistedBefore d t1) (h2 : persistedBefore (lastPersist d t1) t2) :
    persistedBefore d (t1 ++ t2) := by
  induction t1 generalizing d with
  | nil => exact h2
  | cons ev t ih =>
    cases ev with
    | persist m =>
      simp only [List.cons_append, persistedBefore]
      exact ih h1 h2
    | convert i c =>
      simp only [List.cons_append, persistedBefore] at h1 ⊢
      exact ⟨h1.1, ih h1.2 h2⟩
    | addGraph i =>
      simp only [List.cons_append, persistedBefore] at h1 ⊢
      exact ⟨h1.1, ih h1.2 h2⟩

theorem persistedBefore_converts {msgId : String} {disk : Ckpt}
    (hpend : disk msgId = some Status.pending) :
    ∀ {evs : List Event}, (∀ ev ∈ evs, ∃ c, ev = Event.convert msgId c) →
      ∀ rest : List Event, persistedBefore disk rest →
        persistedBefore disk (evs ++ rest) ∧
          lastPersist disk (evs ++ rest) = lastPersist disk rest := by
  intro evs
  induction evs with
  | nil => intro _ rest h; exact ⟨h, rfl⟩
  | cons ev t ih =>
    intro hk rest hrest
    rcases hk ev (List.mem_cons_self _ _) with ⟨c, rfl⟩
    have ht := ih (fun e he => hk e (List.mem_cons_of_mem _ he)) rest hrest
    simp only [List.cons_append, persistedBefore, lastPersist]
    exact ⟨⟨hpend, ht.1⟩, ht.2⟩

theorem tryBody_persists {γ : Type} (convert : Document → Except String (List γ))
    (add : List γ → Except String Unit) (ck1 : Ckpt) (msgId : String) (docs : List Document)
    (hpend : ck1 msgId = some Status.pending) :
    persistedBefore ck1 (tryBody convert add ck1 msgId docs).2 ∧
      lastPersist ck1 (tryBody convert add ck1 msgId docs).2 =
        (tryBody convert add ck1 msgId docs).1 := by
  have hconv := runConverts_events convert msgId docs
  cases hr : (runConverts convert msgId docs).2 with
  | error e =>
    simp only [tryBody, hr]
    have h := persistedBefore_converts hpend hconv
      [Event.persist (ck1.set msgId (Status.error e))] (by exact trivial)
    exact ⟨h.1, by rw [h.2]; rfl⟩
  | ok gs =>
    cases ha : add gs with
    | error e =>
      simp only [tryBody, hr, ha]
      have h := persistedBefore_converts hpend hconv
        [Event.addGraph msgId, Event.persist (ck1.set msgId (Status.error e))]
        (by exact ⟨hpend, trivial⟩)
      exact ⟨h.1, by rw [h.2]; rfl⟩
    | ok u =>
      simp only [tryBody, hr, ha]
      have h := persistedBefore_converts hpend hconv
        [Event.addGraph msgId, Event.persist (ck1.set msgId (Status.done doneResult))]
        (by exact ⟨hpend, trivial⟩)
      exact ⟨h.1, by rw [h.2]; rfl⟩

theorem processItem_skip {γ : Type} (convert : Document → Except String (List γ))
    (add : List γ → Except String Unit) (enc : String → Nat) (st : RunState) (m : SlackMsg)
    (h : st.aborted = true ∨ m.timestamp = "" ∨ isDoneAt st.ckpt m.timestamp = true) :
    processItem convert add enc st m = st := by
  by_cases h1 : st.aborted = true
  · simp [processItem, h1]
  · by_cases h2 : m.timestamp = ""
    · simp [processItem, h1, h2]
    · have h3 : isDoneAt st.ckpt m.timestamp = true := by
        rcases h with h | h | h
        · exact absurd h h1
        · exact absurd h h2
        · exact h
      simp [processItem, h1, h2, h3]

theorem processItem_shape {γ : Type} (convert : Document → Except String (List γ))
    (add : List γ → Except String Unit) (enc : String → Nat) (st : RunState) (m : SlackMsg)
    (h1 : st.aborted = false) (h2 : m.timestamp ≠ "")
    (h3 : isDoneAt st.ckpt m.timestamp = false) :
    (assemble st.slackContent m = none ∧
      processItem convert add enc st m =
        { ckpt := st.ckpt.set m.timestamp Status.pending, slackContent := none,
          trace := st.trace ++ [Event.persist (st.ckpt.set m.timestamp Status.pending)],
          aborted := true }) ∨
    (∃ content, assemble st.slackContent m = some content ∧
      processItem convert add enc st m =
        { ckpt := (tryBody convert add (st.ckpt.set m.timestamp Status.pending) m.timestamp
            ((buildDocuments enc 3000 content).map (fun t => Document.mk t m.timestamp))).1,
          slackContent := some content,
          trace := (st.trace ++ [Event.persist (st.ckpt.set m.timestamp Status.pending)]) ++
            (tryBody convert add (st.ckpt.set m.timestamp Status.pending) m.timestamp
              ((buildDocuments enc 3000 content).map (fun t => Document.mk t m.timestamp))).2,
          aborted := false }) := by
  cases ha : assemble st.slackContent m with
  | none => exact Or.inl ⟨rfl, by simp [processItem, h1, h2, h3, ha]⟩
  | some content => exact Or.inr ⟨content, rfl, by simp [processItem, h1, h2, h3, ha]⟩

theorem splitTail_ne_nil (sep : List Char) :
    ∀ (fuel : Nat) (l acc : List Char), splitTail sep fuel l acc ≠ [] := by
  intro fuel
  induction fuel with
  | zero => intro l acc; cases l <;> simp [splitTail]
  | succ n ih =>
    intro l acc
    cases l with
    | nil => simp [splitTail]
    | cons c cs =>
      by_cases hp : sep.isPrefixOf (c :: cs)
      · simp [splitTail, hp]
      · simp only [splitTail, if_neg hp]
        exact ih cs (c :: acc)

theorem pySplit_ne_nil (s sep : String) : pySplit s sep ≠ [] := by
  simp only [pySplit]
  intro h
  rw [List.map_eq_nil_iff] at h
  exact splitTail_ne_nil sep.data s.data.length s.data [] h

theorem packFold_cur_ne_nil (enc : String → Nat) (limit : Nat) (paras : List String) :
    ∀ st : PackState, (paras ≠ [] ∨ st.cur ≠ []) →
      (paras.foldl (packStep enc limit) st).cur ≠ [] := by
  induction paras with
  | nil =>
    intro st h
    rcases h with h | h
    · exact absurd rfl h
    · exact h
  | cons p ps ih =>
    intro st _
    apply ih
    right
    by_cases hc : st.curTokens + enc p < limit
    · simp [packStep, hc]
    · simp [packStep, hc]

theorem packGroups_ne_nil (enc : String → Nat) (limit : Nat) (content : String) :
    packGroups enc limit content ≠ [] := by
  simp only [packGroups]
  have h := packFold_cur_ne_nil enc limit (pySplit content "\n\n") ⟨[], [], 0⟩
    (Or.inl (pySplit_ne_nil content "\n\n"))
  rw [if_neg h]
  simp

theorem buildDocuments_ne_nil (enc : String → Nat) (limit : Nat) (content : String) :
    buildDocuments enc limit content ≠ [] := by
  by_cases h : enc content > limit
  · simp only [buildDocuments, if_pos h]
    simp [packGroups_ne_nil]
  · simp only [buildDocuments, if_neg h]
    simp

theorem touches_false_of_ne {msgId other : String} (h : other ≠ msgId) (c : String) :
    touches msgId (Event.convert other c) = false ∧
      touches msgId (Event.addGraph other) = false := by
  constructor <;> simp [touches, h]

theorem processItem_preserves_done {γ : Type} (convert : Document → Except String (List γ))
    (add : List γ → Except String Unit) (enc : String → Nat) (st : RunState) (m : SlackMsg)
    (msgId r : String) (h : st.ckpt msgId = some (Status.done r)) :
    (processItem convert add enc st m).ckpt msgId = some (Status.done r) ∧
      invokedIn msgId (processItem convert add enc st m).trace = invokedIn msgId st.trace := by
  by_cases h1 : st.aborted = true
  · rw [processItem_skip convert add enc st m (Or.inl h1)]
    exact ⟨h, rfl⟩
  · by_cases h2 : m.timestamp = ""
    · rw [processItem_skip convert add enc st m (Or.inr (Or.inl h2))]
      exact ⟨h, rfl⟩
    · by_cases h3 : isDoneAt st.ckpt m.timestamp = true
      · rw [processItem_skip convert add enc st m (Or.inr (Or.inr h3))]
        exact ⟨h, rfl⟩
      · have hne : m.timestamp ≠ msgId := by
          intro he
          rw [he] at h3
          simp [isDoneAt, h, Status.isDone] at h3
        have h1f : st.aborted = false := by simpa using h1
        have h3f : isDoneAt st.ckpt m.timestamp = false := by simpa using h3
        rcases processItem_shape convert add enc st m h1f h2 h3f with
          ⟨hc, hst⟩ | ⟨content, hc, hst⟩
        · rw [hst]
          refine ⟨(Ckpt.set_other _ _ _ _ (Ne.symm hne)).trans h, ?_⟩
          simp [invokedIn, List.any_append, touches]
        · rw [hst]
          dsimp only
          constructor
          · rcases tryBody_ckpt_set convert add (st.ckpt.set m.timestamp Status.pending)
              m.timestamp ((buildDocuments enc 3000 content).map
                (fun t => Document.mk t m.timestamp)) with ⟨s, hs⟩
            rw [hs, Ckpt.set_other _ _ _ _ (Ne.symm hne),
              Ckpt.set_other _ _ _ _ (Ne.symm hne)]
            exact h
          · have hz : ∀ ev ∈ (tryBody convert add (st.ckpt.set m.timestamp Status.pending)
                m.timestamp ((buildDocuments enc 3000 content).map
                  (fun t => Document.mk t m.timestamp))).2, touches msgId ev = false := by
              intro ev hev
              rcases tryBody_events_kinds convert add _ _ _ ev hev with
                ⟨c, rfl⟩ | rfl | ⟨ckx, rfl⟩
              · exact (touches_false_of_ne hne c).1
              · exact (touches_false_of_ne hne "").2
              · rfl
            have h5 : ((tryBody convert add (st.ckpt.set m.timestamp Status.pending)
                m.timestamp ((buildDocuments enc 3000 content).map
                  (fun t => Document.mk t m.timestamp))).2).any (touches msgId) = false := by
              rw [List.any_eq_false]
              intro x hx hx2
              rw [hz x hx] at hx2
              cases hx2
            simp [invokedIn, List.any_append, touches, h5]

theorem foldl_preserves_done {γ : Type} (convert : Document → Except String (List γ))
    (add : List γ → Except String Unit) (enc : String → Nat) (msgs : List SlackMsg) :
    ∀ (st : RunState) (msgId r : String), st.ckpt msgId = some (Status.done r) →
      (msgs.foldl (processItem convert add enc) st).ckpt msgId = some (Status.done r) ∧
        invokedIn msgId (msgs.foldl (processItem convert add enc) st).trace =
          invokedIn msgId st.trace := by
  induction msgs with
  | nil => intro st msgId r h; exact ⟨h, rfl⟩
  | cons m ms ih =>
    intro st msgId r h
    have h1 := processItem_preserves_done convert add enc st m msgId r h
    have h2 := ih (processItem convert add enc st m) msgId r h1.1
    exact ⟨h2.1, h2.2.trans h1.2⟩

theorem processItem_aborted_mono {γ : Type} (convert : Document → Except String (List γ))
    (add : List γ → Except String Unit) (enc : String → Nat) (st : RunState) (m : SlackMsg)
    (h : st.aborted = true) : (processItem convert add enc st m).aborted = true := by
  rw [processItem_skip convert add enc st m (Or.inl h)]
  exact h

theorem foldl_aborted_mono {γ : Type} (convert : Document → Except String (List γ))
    (add : List γ → Except String Unit) (enc : String → Nat) (msgs : List SlackMsg) :
    ∀ st : RunState, st.aborted = true →
      (msgs.foldl (processItem convert add enc) st).aborted = true := by
  induction msgs with
  | nil => intro st h; exact h
  | cons m ms ih =>
    intro st h
    exact ih _ (processItem_aborted_mono convert add enc st m h)

theorem processItem_trace_ext {γ : Type} (convert : Document → Except String (List γ))
    (add : List γ → Except String Unit) (enc : String → Nat) (st : RunState) (m : SlackMsg) :
    ∃ ext, (processItem convert add enc st m).trace = st.trace ++ ext := by
  by_cases h1 : st.aborted = true
  · exact ⟨[], by rw [processItem_skip convert add enc st m (Or.inl h1)]; simp⟩
  · by_cases h2 : m.timestamp = ""
    · exact ⟨[], by rw [processItem_skip convert add enc st m (Or.inr (Or.inl h2))]; simp⟩
    · by_cases h3 : isDoneAt st.ckpt m.timestamp = true
      · exact ⟨[], by rw [processItem_skip convert add enc st m (Or.inr (Or.inr h3))]; simp⟩
      · have h1f : st.aborted = false := by simpa using h1
        have h3f : isDoneAt st.ckpt m.timestamp = false := by simpa using h3
        rcases processItem_shape convert add enc st m h1f h2 h3f with
          ⟨hc, hst⟩ | ⟨content, hc, hst⟩
        · exact ⟨_, by rw [hst]⟩
        · refine ⟨[Event.persist (st.ckpt.set m.timestamp Status.pending)] ++
            (tryBody convert add (st.ckpt.set m.timestamp Status.pending) m.timestamp
              ((buildDocuments enc 3000 content).map (fun t => Document.mk t m.timestamp))).2, ?_⟩
          rw [hst]
          dsimp only
          rw [List.append_assoc]

theorem foldl_trace_ext {γ : Type} (convert : Document → Except String (List γ))
    (add : List γ → Except String Unit) (enc : String → Nat) (msgs : List SlackMsg) :
    ∀ st : RunState, ∃ ext,
      (msgs.foldl (processItem convert add enc) st).trace = st.trace ++ ext := by
  induction msgs with
  | nil => intro st; exact ⟨[], by simp⟩
  | cons m ms ih =>
    intro st
    rcases processItem_trace_ext convert add enc st m with ⟨e1, he1⟩
    rcases ih (processItem convert add enc st m) with ⟨e2, he2⟩
    exact ⟨e1 ++ e2, by rw [List.foldl_cons, he2, he1, List.append_assoc]⟩

theorem invokedIn_mono {msgId : String} {t ext : List Event}
    (h : invokedIn msgId t = true) : invokedIn msgId (t ++ ext) = true := by
  simp [invokedIn, List.any_append] at h ⊢
  exact Or.inl h

theorem isDoneAt_set_self (ck : Ckpt) (i : String) (s : Status) :
    isDoneAt (ck.set i s) i = s.isDone := by
  simp [isDoneAt, Ckpt.set_self]

theorem isDoneAt_set_other (ck : Ckpt) (i x : String) (s : Status) (h : x ≠ i) :
    isDoneAt (ck.set i s) x = isDoneAt ck x := by
  simp [isDoneAt, Ckpt.set_other _ _ _ _ h]

theorem processItem_done_of_new {γ : Type} (convert : Document → Except String (List γ))
    (add : List γ → Except String Unit) (enc : String → Nat) (st : RunState) (m : SlackMsg)
    (x : String) (h0 : isDoneAt st.ckpt x = false)
    (hnew : isDoneAt (processItem convert add enc st m).ckpt x = true) :
    invokedIn x (processItem convert add enc st m).trace = true := by
  by_cases h1 : st.aborted = true
  · rw [processItem_skip convert add enc st m (Or.inl h1)] at hnew
    rw [h0] at hnew
    cases hnew
  · by_cases h2 : m.timestamp = ""
    · rw [processItem_skip convert add enc st m (Or.inr (Or.inl h2))] at hnew
      rw [h0] at hnew
      cases hnew
    · by_cases h3 : isDoneAt st.ckpt m.timestamp = true
      · rw [processItem_skip convert add enc st m (Or.inr (Or.inr h3))] at hnew
        rw [h0] at hnew
        cases hnew
      · have h1f : st.aborted = false := by simpa using h1
        have h3f : isDoneAt st.ckpt m.timestamp = false := by simpa using h3
        rcases processItem_shape convert add enc st m h1f h2 h3f with
          ⟨hc, hst⟩ | ⟨content, hc, hst⟩
        · rw [hst] at hnew
          dsimp only at hnew
          exfalso
          by_cases hx : x = m.timestamp
          · rw [hx, isDoneAt_set_self] at hnew
            simp [Status.isDone] at hnew
          · rw [isDoneAt_set_other _ _ _ _ hx, h0] at hnew
            cases hnew
        · rw [hst] at hnew ⊢
          dsimp only at hnew ⊢
          by_cases hx : x = m.timestamp
          · subst hx
            have hdone := tryBody_done convert add (st.ckpt.set m.timestamp Status.pending)
              m.timestamp ((buildDocuments enc 3000 content).map
                (fun t => Document.mk t m.timestamp)) hnew
            simp only [invokedIn, List.any_append, Bool.or_eq_true]
            right
            rw [hdone.2]
            refine List.any_eq_true.mpr ⟨Event.addGraph m.timestamp, ?_, by simp [touches]⟩
            exact List.mem_append.mpr (Or.inr (by simp))
          · exfalso
            rcases tryBody_ckpt_set convert add (st.ckpt.set m.timestamp Status.pending)
              m.timestamp ((buildDocuments enc 3000 content).map
                (fun t => Document.mk t m.timestamp)) with ⟨s, hs⟩
            rw [hs, isDoneAt_set_other _ _ _ _ hx, isDoneAt_set_other _ _ _ _ hx, h0] at hnew
            cases hnew

theorem processItem_invoked {γ : Type} (convert : Document → Except String (List γ))
    (add : List γ → Except String Unit) (enc : String → Nat) (st : RunState) (m : SlackMsg)
    (h1 : st.aborted = false) (h2 : m.timestamp ≠ "")
    (h3 : isDoneAt st.ckpt m.timestamp = false)
    (h4 : (processItem convert add enc st m).aborted = false) :
    invokedIn m.timestamp (processItem convert add enc st m).trace = true := by
  rcases processItem_shape convert add enc st m h1 h2 h3 with ⟨hc, hst⟩ | ⟨content, hc, hst⟩
  · rw [hst] at h4
    cases h4
  · rw [hst]
    dsimp only
    have hdocs : ∃ d ds, (buildDocuments enc 3000 content).map
        (fun t => Document.mk t m.timestamp) = d :: ds := by
      rcases List.exists_cons_of_ne_nil (buildDocuments_ne_nil enc 3000 content) with
        ⟨t, ts, hbd⟩
      exact ⟨_, _, by rw [hbd, List.map_cons]⟩
    rcases hdocs with ⟨d, ds, hd⟩
    rw [hd]
    have hmem := tryBody_backend_mem convert add
      (st.ckpt.set m.timestamp Status.pending) m.timestamp d ds
    simp only [invokedIn, List.any_append, Bool.or_eq_true]
    right
    exact List.any_eq_true.mpr ⟨_, hmem, by simp [touches]⟩

theorem foldl_invoked {γ : Type} (convert : Document → Except String (List γ))
    (add : List γ → Except String Unit) (enc : String → Nat) (msgs : List SlackMsg) :
    ∀ st : RunState, (msgs.foldl (processItem convert add enc) st).aborted = false →
      ∀ m ∈ msgs, m.timestamp ≠ "" → isDoneAt st.ckpt m.timestamp = false →
        invokedIn m.timestamp (msgs.foldl (processItem convert add enc) st).trace = true := by
  induction msgs with
  | nil => intro st _ m hm; cases hm
  | cons m0 ms ih =>
    intro st hfin m hm hts hdone
    rw [List.foldl_cons] at hfin ⊢
    have hst1ab : (processItem convert add enc st m0).aborted = false := by
      by_contra hx
      have h := foldl_aborted_mono convert add enc ms
        (processItem convert add enc st m0) (by simpa using hx)
      rw [h] at hfin
      cases hfin
    have hstab : st.aborted = false := by
      by_contra hx
      have h := processItem_aborted_mono convert add enc st m0 (by simpa using hx)
      rw [h] at hst1ab
      cases hst1ab
    rcases List.mem_cons.mp hm with rfl | hm2
    · have hinv := processItem_invoked convert add enc st m hstab hts hdone hst1ab
      rcases foldl_trace_ext convert add enc ms (processItem convert add enc st m) with
        ⟨ext, hext⟩
      rw [hext]
      exact invokedIn_mono hinv
    · by_cases hd : isDoneAt (processItem convert add enc st m0).ckpt m.timestamp = true
      · have hinv := processItem_done_of_new convert add enc st m0 m.timestamp hdone hd
        rcases foldl_trace_ext convert add enc ms (processItem convert add enc st m0) with
          ⟨ext, hext⟩
        rw [hext]
        exact invokedIn_mono hinv
      · exact ih _ hfin m hm2 hts (by simpa using hd)

theorem foldl_all_done_id {γ : Type} (convert : Document → Except String (List γ))
    (add : List γ → Except String Unit) (enc : String → Nat) (msgs : List SlackMsg) :
    ∀ st : RunState, (∀ m ∈ msgs, m.timestamp ≠ "" → isDoneAt st.ckpt m.timestamp = true) →
      msgs.foldl (processItem convert add enc) st = st := by
  induction msgs with
  | nil => intro st _; rfl
  | cons m0 ms ih =>
    intro st hall
    rw [List.foldl_cons]
    have hskip : processItem convert add enc st m0 = st := by
      by_cases hid : m0.timestamp = ""
      · exact processItem_skip convert add enc st m0 (Or.inr (Or.inl hid))
      · exact processItem_skip convert add enc st m0
          (Or.inr (Or.inr (hall m0 (List.mem_cons_self _ _) hid)))
    rw [hskip]
    exact ih st (fun m hm => hall m (List.mem_cons_of_mem _ hm))

/-- C1: items `done` at the start of a run are never re-submitted to the
unit of work; a batch whose checkpoint already marks every valid item `done`
emits no events at all on a re-run (zero unit-of-work invocations); and in a
run that completes without an uncaught error, every valid item whose entry is
`pending`, `error`, or absent is reattempted (the unit of work is invoked). -/
theorem batch_skip_done_and_retry {γ : Type} (convert : Document → Except String (List γ))
    (add : List γ → Except String Unit) (enc : String → Nat) (msgs : List SlackMsg)
    (ckpt0 : Ckpt) :
    (∀ msgId r, ckpt0 msgId = some (Status.done r) →
        invokedIn msgId (runBatch convert add enc msgs ckpt0).trace = false) ∧
    ((∀ m ∈ msgs, m.timestamp ≠ "" → isDoneAt ckpt0 m.timestamp = true) →
        (runBatch convert add enc msgs ckpt0).trace = []) ∧
    ((runBatch convert add enc msgs ckpt0).aborted = false →
      ∀ m ∈ msgs, m.timestamp ≠ "" → isDoneAt ckpt0 m.timestamp = false →
        invokedIn m.timestamp (runBatch convert add enc msgs ckpt0).trace = true) := by
  refine ⟨?_, ?_, ?_⟩
  · intro msgId r h
    exact (foldl_preserves_done convert add enc msgs ⟨ckpt0, none, [], false⟩ msgId r h).2
  · intro hall
    have h := foldl_all_done_id convert add enc msgs ⟨ckpt0, none, [], false⟩ hall
    rw [runBatch, h]
  · intro hab m hm hts hdone
    exact foldl_invoked convert add enc msgs ⟨ckpt0, none, [], false⟩ hab m hm hts hdone

def c1ckpt : Ckpt := fun i => if i = "1" then some (Status.done "r") else none

/-- Witness for C1 at a concrete batch: item `"1"` is `done` at the start and
is never invoked again, item `"2"` is absent and is reattempted, and a batch
of only `done` items emits nothing. -/
theorem batch_skip_done_and_retry_witness :
    invokedIn "1" (runBatch (γ := Unit) (fun _ => Except.ok []) (fun _ => Except.ok ())
        String.length [⟨"1", ⟨"hi", []⟩, []⟩, ⟨"2", ⟨"yo", []⟩, []⟩] c1ckpt).trace = false ∧
    invokedIn "2" (runBatch (γ := Unit) (fun _ => Except.ok []) (fun _ => Except.ok ())
        String.length [⟨"1", ⟨"hi", []⟩, []⟩, ⟨"2", ⟨"yo", []⟩, []⟩] c1ckpt).trace = true ∧
    (runBatch (γ := Unit) (fun _ => Except.ok []) (fun _ => Except.ok ())
        String.length [⟨"1", ⟨"hi", []⟩, []⟩] c1ckpt).trace = [] :=
  ⟨(batch_skip_done_and_retry (γ := Unit) (fun _ => Except.ok []) (fun _ => Except.ok ())
      String.length [⟨"1", ⟨"hi", []⟩, []⟩, ⟨"2", ⟨"yo", []⟩, []⟩] c1ckpt).1 "1" "r" (by decide),
   (batch_skip_done_and_retry (γ := Unit) (fun _ => Except.ok []) (fun _ => Except.ok ())
      String.length [⟨"1", ⟨"hi", []⟩, []⟩, ⟨"2", ⟨"yo", []⟩, []⟩] c1ckpt).2.2 (by decide)
      ⟨"2", ⟨"yo", []⟩, []⟩ (by decide) (by decide) (by decide),
   (batch_skip_done_and_retry (γ := Unit) (fun _ => Except.ok []) (fun _ => Except.ok ())
      String.length [⟨"1", ⟨"hi", []⟩, []⟩] c1ckpt).2.1 (by decide)⟩

theorem processItem_disk {γ : Type} (convert : Document → Except String (List γ))
    (add : List γ → Except String Unit) (enc : String → Nat) (ckD : Ckpt)
    (st : RunState) (m : SlackMsg)
    (h1 : lastPersist ckD st.trace = st.ckpt) (h2 : persistedBefore ckD st.trace) :
    lastPersist ckD (processItem convert add enc st m).trace =
        (processItem convert add enc st m).ckpt ∧
      persistedBefore ckD (processItem convert add enc st m).trace := by
  by_cases ha : st.aborted = true
  · rw [processItem_skip convert add enc st m (Or.inl ha)]
    exact ⟨h1, h2⟩
  · by_cases hid : m.timestamp = ""
    · rw [processItem_skip convert add enc st m (Or.inr (Or.inl hid))]
      exact ⟨h1, h2⟩
    · by_cases hd : isDoneAt st.ckpt m.timestamp = true
      · rw [processItem_skip convert add enc st m (Or.inr (Or.inr hd))]
        exact ⟨h1, h2⟩
      · have haf : st.aborted = false := by simpa using ha
        have hdf : isDoneAt st.ckpt m.timestamp = false := by simpa using hd
        rcases processItem_shape convert add enc st m haf hid hdf with
          ⟨hc, hst⟩ | ⟨content, hc, hst⟩
        · rw [hst]
          dsimp only
          constructor
          · rw [lastPersist_append, h1]
            rfl
          · exact persistedBefore_append h2 (by rw [h1]; exact trivial)
        · rw [hst]
          dsimp only
          have hpend : (st.ckpt.set m.timestamp Status.pending) m.timestamp =
              some Status.pending := Ckpt.set_self _ _ _
          have htb := tryBody_persists convert add (st.ckpt.set m.timestamp Status.pending)
            m.timestamp ((buildDocuments enc 3000 content).map
              (fun t => Document.mk t m.timestamp)) hpend
          have hlp : lastPersist ckD (st.trace ++
              [Event.persist (st.ckpt.set m.timestamp Status.pending)]) =
              st.ckpt.set m.timestamp Status.pending := by
            rw [lastPersist_append, h1]
            rfl
          constructor
          · rw [lastPersist_append, hlp, htb.2]
          · apply persistedBefore_append
            · exact persistedBefore_append h2 (by rw [h1]; exact trivial)
            · rw [hlp]
              exact htb.1

theorem foldl_disk {γ : Type} (convert : Document → Except String (List γ))
    (add : List γ → Except String Unit) (enc : String → Nat) (msgs : List SlackMsg) :
    ∀ (st : RunState) (ckD : Ckpt),
      lastPersist ckD st.trace = st.ckpt → persistedBefore ckD st.trace →
      lastPersist ckD (msgs.foldl (processItem convert add enc) st).trace =
          (msgs.foldl (processItem convert add enc) st).ckpt ∧
        persistedBefore ckD (msgs.foldl (processItem convert add enc) st).trace := by
  induction msgs with
  | nil => intro st ckD h1 h2; exact ⟨h1, h2⟩
  | cons m0 ms ih =>
    intro st ckD h1 h2
    rw [List.foldl_cons]
    have h := processItem_disk convert add enc ckD st m0 h1 h2
    exact ih _ ckD h.1 h.2

/-- C2: in every batch run, every side-effecting backend call for an item
happens while the on-disk checkpoint store maps that item to `pending` (the
`pending` entry is persisted before the call), and at the end of the run —
hence, since every prefix of the message list is itself a run, at every item
boundary — the store on disk equals the in-memory store, i.e. the disk
always reflects the last completed transition. -/
theorem checkpoint_persist_discipline {γ : Type} (convert : Document → Except String (List γ))
    (add : List γ → Except String Unit) (enc : String → Nat) (msgs : List SlackMsg)
    (ckpt0 : Ckpt) :
    persistedBefore ckpt0 (runBatch convert add enc msgs ckpt0).trace ∧
      lastPersist ckpt0 (runBatch convert add enc msgs ckpt0).trace =
        (runBatch convert add enc msgs ckpt0).ckpt := by
  have h := foldl_disk convert add enc msgs ⟨ckpt0, none, [], false⟩ ckpt0 rfl trivial
  exact ⟨h.2, h.1⟩

/-! ### C3 — a failure before the `try` block aborts the whole batch -/

def c3msgs : List SlackMsg := [⟨"1", ⟨"", []⟩, []⟩, ⟨"2", ⟨"hello", []⟩, []⟩]

def c3run : RunState :=
  runBatch (γ := Unit) (fun _ => Except.ok []) (fun _ => Except.ok ()) String.length
    c3msgs (fun _ => none)

/-- C3 evidence: the content assembly (lines 112-121) runs before the `try`
block, so on the very first processed message with an empty `text` the read
of the never-assigned `slack_content` raises an uncaught `NameError`: the
run aborts with item `"1"` left `pending` (not `error`), its unit of work
never invoked, and item `"2"` never reached — contradicting "no single
item's failure aborts the batch". -/
theorem batch_aborts_on_empty_text :
    c3run.aborted = true ∧ c3run.ckpt "1" = some Status.pending ∧
      c3run.ckpt "2" = none ∧ invokedIn "1" c3run.trace = false ∧
      invokedIn "2" c3run.trace = false := by
  exact ⟨by decide, by decide, by decide, by decide, by decide⟩

/-! ### C7, C10 — rerank -/

def rrScored (score : String → String → Int) (query : String) (docs : List String) :
    List (Nat × String × Int) :=
  docs.enum.map (fun p => (p.1, p.2, score query p.2))

theorem rerank_eq (score : String → String → Int) (query : String) (docs : List String)
    (k2 : Nat) (h : ¬docs = []) :
    rerank score query docs k2 =
      (((rrScored score query docs).mergeSort rrCmp).map (fun p => p.2.1)).take k2 := by
  simp [rerank, h, rrScored]

theorem rrCmp_trans : ∀ a b c : Nat × String × Int,
    rrCmp a b = true → rrCmp b c = true → rrCmp a c = true := by
  intro a b c hab hbc
  simp only [rrCmp, Bool.or_eq_true, Bool.and_eq_true, decide_eq_true_eq] at hab hbc ⊢
  rcases hab with h1 | ⟨h1, h2⟩ <;> rcases hbc with h3 | ⟨h3, h4⟩
  · exact Or.inl (lt_trans h3 h1)
  · exact Or.inl (by rw [← h3]; exact h1)
  · exact Or.inl (by rw [h1]; exact h3)
  · exact Or.inr ⟨h1.trans h3, Nat.le_trans h2 h4⟩

theorem rrCmp_total : ∀ a b : Nat × String × Int, (rrCmp a b || rrCmp b a) = true := by
  intro a b
  simp only [rrCmp, Bool.or_eq_true, Bool.and_eq_true, decide_eq_true_eq]
  rcases lt_trichotomy a.2.2 b.2.2 with h | h | h
  · exact Or.inr (Or.inl h)
  · rcases Nat.le_total a.1 b.1 with h2 | h2
    · exact Or.inl (Or.inr ⟨h, h2⟩)
    · exact Or.inr (Or.inr ⟨h.symm, h2⟩)
  · exact Or.inl (Or.inl h)

theorem rrScored_snd (score : String → String → Int) (query : String) (docs : List String) :
    ∀ p ∈ rrScored score query docs, p.2.2 = score query p.2.1 := by
  intro p hp
  rcases List.mem_map.mp hp with ⟨q, _, rfl⟩
  rfl

theorem rrScored_map_proj (score : String → String → Int) (query : String)
    (docs : List String) :
    (rrScored score query docs).map (fun p => p.2.1) = docs := by
  simp only [rrScored, List.map_map]
  have h : ((fun p : Nat × String × Int => p.2.1) ∘
      (fun p : Nat × String => (p.1, p.2, score query p.2))) = Prod.snd := rfl
  rw [h, List.enum_map_snd]

theorem rrScored_map_fst (score : String → String → Int) (query : String)
    (docs : List String) :
    (rrScored score query docs).map Prod.fst = List.range docs.length := by
  simp only [rrScored, List.map_map]
  have h : ((Prod.fst : Nat × String × Int → Nat) ∘
      (fun p : Nat × String => (p.1, p.2, score query p.2))) = Prod.fst := rfl
  rw [h, List.enum_map_fst]

theorem rrScored_length (score : String → String → Int) (query : String)
    (docs : List String) : (rrScored score query docs).length = docs.length := by
  simp [rrScored, List.enum_length]

/-- C7: rerank on the empty candidate list returns the empty list; in general
the returned documents can be extended (by the dropped tail) to a permutation
of the whole candidate list sorted by descending cross-encoder score — i.e.
the output is exactly the `k2` highest-scoring candidates in descending score
order — and the output length is `min k2 (number of candidates)`, so with
fewer than `k2` candidates every candidate is returned. -/
theorem rerank_top_k (score : String → String → Int) (query : String) (docs : List String)
    (k2 : Nat) :
    rerank score query [] k2 = [] ∧
    (∃ rest, ((rerank score query docs k2) ++ rest).Perm docs ∧
      List.Pairwise (fun d1 d2 => score query d2 ≤ score query d1)
        ((rerank score query docs k2) ++ rest)) ∧
    (rerank score query docs k2).length = min k2 docs.length := by
  refine ⟨rfl, ?_, ?_⟩
  · by_cases h : docs = []
    · subst h
      exact ⟨[], by simp [rerank], by simp [rerank]⟩
    · rw [rerank_eq score query docs k2 h]
      have hperm := List.mergeSort_perm (rrScored score query docs) rrCmp
      have hsorted := List.sorted_mergeSort rrCmp_trans rrCmp_total (rrScored score query docs)
      have hmem_snd : ∀ p ∈ (rrScored score query docs).mergeSort rrCmp,
          p.2.2 = score query p.2.1 := fun p hp =>
        rrScored_snd score query docs p (hperm.mem_iff.mp hp)
      refine ⟨((((rrScored score query docs).mergeSort rrCmp).map (fun p => p.2.1))).drop k2,
        ?_, ?_⟩
      · rw [List.take_append_drop]
        have h1 := List.Perm.map (fun p : Nat × String × Int => p.2.1) hperm
        rwa [rrScored_map_proj] at h1
      · rw [List.take_append_drop]
        apply List.pairwise_map.mpr
        refine List.Pairwise.imp_of_mem ?_ hsorted
        intro a b ha hb hr
        simp only [rrCmp, Bool.or_eq_true, Bool.and_eq_true, decide_eq_true_eq] at hr
        rw [← hmem_snd a ha, ← hmem_snd b hb]
        rcases hr with h1 | ⟨h1, _⟩
        · exact le_of_lt h1
        · exact le_of_eq h1.symm
  · by_cases h : docs = []
    · subst h
      simp [rerank]
    · rw [rerank_eq score query docs k2 h]
      have hperm := List.mergeSort_perm (rrScored score query docs) rrCmp
      rw [List.length_take, List.length_map, hperm.length_eq, rrScored_length]

/-- C10: the reranked list is a sub-multiset of the input candidates (no
document is created, duplicated, or modified — every output document is an
input candidate, taken at most as often as it occurs), and candidates with
equal cross-encoder scores keep their original relative order: for every
score value, the output's candidates with that score form a prefix of the
input's candidates with that score (CPython's `sorted` is stable and
`reverse=True` preserves stability). -/
theorem rerank_subperm_stable (score : String → String → Int) (query : String)
    (docs : List String) (k2 : Nat) :
    (rerank score query docs k2).Subperm docs ∧
    ∀ s : Int, (rerank score query docs k2).filter (fun d => decide (score query d = s)) <+:
      docs.filter (fun d => decide (score query d = s)) := by
  by_cases h : docs = []
  · subst h
    constructor
    · simp [rerank]
    · intro s
      simp [rerank]
  · rw [rerank_eq score query docs k2 h]
    have hperm := List.mergeSort_perm (rrScored score query docs) rrCmp
    have hsorted := List.sorted_mergeSort rrCmp_trans rrCmp_total (rrScored score query docs)
    have hmem_snd : ∀ p ∈ (rrScored score query docs).mergeSort rrCmp,
        p.2.2 = score query p.2.1 := fun p hp =>
      rrScored_snd score query docs p (hperm.mem_iff.mp hp)
    have hfull : ((((rrScored score query docs).mergeSort rrCmp).map
        (fun p => p.2.1))).Perm docs := by
      have h1 := List.Perm.map (fun p : Nat × String × Int => p.2.1) hperm
      rwa [rrScored_map_proj] at h1
    constructor
    · exact ((List.take_sublist _ _).subperm).trans hfull.subperm
    · intro s
      have step1 : ((((rrScored score query docs).mergeSort rrCmp).map
            (fun p => p.2.1)).take k2).filter (fun d => decide (score query d = s)) <+:
          (((rrScored score query docs).mergeSort rrCmp).map
            (fun p => p.2.1)).filter (fun d => decide (score query d = s)) :=
        List.IsPrefix.filter _ (List.take_prefix _ _)
      have hfst_sorted : List.Pairwise (fun a b : Nat × String × Int => a.1 < b.1)
          (rrScored score query docs) := by
        have h1 := List.pairwise_lt_range docs.length
        rw [← rrScored_map_fst score query docs] at h1
        exact List.pairwise_map.mp h1
      have hnodup : List.Pairwise (fun a b : Nat × String × Int => a.1 ≠ b.1)
          ((rrScored score query docs).mergeSort rrCmp) := by
        have h1 : ((rrScored score query docs).map Prod.fst).Nodup := by
          rw [rrScored_map_fst]
          exact List.nodup_range _
        have h2 : (((rrScored score query docs).mergeSort rrCmp).map Prod.fst).Nodup :=
          ((hperm.map Prod.fst).nodup_iff).mpr h1
        exact List.pairwise_map.mp h2
      have hR : ((rrScored score query docs).mergeSort rrCmp).filter
            ((fun d => decide (score query d = s)) ∘ (fun p : Nat × String × Int => p.2.1)) =
          (rrScored score query docs).filter
            ((fun d => decide (score query d = s)) ∘ (fun p : Nat × String × Int => p.2.1)) := by
        haveI : IsAntisymm (Nat × String × Int) (fun a b => a.1 < b.1) :=
          ⟨fun a b h1 h2 => absurd h2 (Nat.lt_asymm h1)⟩
        have hpermf := List.Perm.filter
          ((fun d => decide (score query d = s)) ∘ (fun p : Nat × String × Int => p.2.1)) hperm
        have hsc : ∀ x ∈ ((rrScored score query docs).mergeSort rrCmp).filter
            ((fun d => decide (score query d = s)) ∘ (fun p : Nat × String × Int => p.2.1)),
            x.2.2 = s := by
          intro x hx
          rcases List.mem_filter.mp hx with ⟨hx1, hx2⟩
          simp only [Function.comp_apply, decide_eq_true_eq] at hx2
          rw [hmem_snd x hx1, hx2]
        have hsortL : List.Pairwise (fun a b : Nat × String × Int => a.1 < b.1)
            (((rrScored score query docs).mergeSort rrCmp).filter
              ((fun d => decide (score query d = s)) ∘
                (fun p : Nat × String × Int => p.2.1))) := by
          have hsub : (((rrScored score query docs).mergeSort rrCmp).filter
              ((fun d => decide (score query d = s)) ∘
                (fun p : Nat × String × Int => p.2.1))).Sublist
              ((rrScored score query docs).mergeSort rrCmp) := List.filter_sublist _
          have hboth := List.Pairwise.and
            (List.Pairwise.sublist hsub hsorted)
            (List.Pairwise.sublist hsub hnodup)
          refine List.Pairwise.imp_of_mem ?_ hboth
          intro a b ha hb hab
          rcases hab with ⟨hab1, hab2⟩
          simp only [rrCmp, Bool.or_eq_true, Bool.and_eq_true, decide_eq_true_eq] at hab1
          rcases hab1 with h1 | ⟨_, h2⟩
          · exfalso
            rw [hsc a ha, hsc b hb] at h1
            exact lt_irrefl s h1
          · exact Nat.lt_of_le_of_ne h2 hab2
        have hsortR : List.Pairwise (fun a b : Nat × String × Int => a.1 < b.1)
            ((rrScored score query docs).filter
              ((fun d => decide (score query d = s)) ∘
                (fun p : Nat × String × Int => p.2.1))) := by
          have hsub2 : ((rrScored score query docs).filter
              ((fun d => decide (score query d = s)) ∘
                (fun p : Nat × String × Int => p.2.1))).Sublist
              (rrScored score query docs) := List.filter_sublist _
          exact List.Pairwise.sublist hsub2 hfst_sorted
        exact List.eq_of_perm_of_sorted hpermf hsortL hsortR
      have hgoal : (((rrScored score query docs).mergeSort rrCmp).map
            (fun p => p.2.1)).filter (fun d => decide (score query d = s)) =
          docs.filter (fun d => decide (score query d = s)) := by
        rw [List.filter_map, hR, ← List.filter_map, rrScored_map_proj]
      rw [hgoal] at step1
      exact step1
